import Mathlib

/-!
# Verification of the golang-p2p rendezvous / hole-punching program

Shallow embedding of `main.go` (introducer and peer modes of the UDP
hole-punching chat). Network endpoints are represented by their canonical
`ip:port` string (`from.String()` in the source): the program keys every
map on that string and compares addresses only through it, so the canonical
string determines the behaviour of an address in the model.

The handlers below are sequential functions from state and input to new
state plus a list of emitted side effects (datagrams sent, lines printed),
mirroring the source statement by statement. Go map iteration order is
unspecified; the model keeps insertion order in association lists, and the
theorems proved are insensitive to that order (they speak about sorted
snapshots or about recipient sets up to permutation).
-/

/-- Canonical endpoint string `ip:port` (the value of `addr.String()`). -/
abbrev Addr := String

/-! ## String primitives used by the source (`strings` package) -/

/-- Whitespace test used by `strings.Fields` (ASCII part of `unicode.IsSpace`). -/
def goIsSpace (c : Char) : Bool :=
  c = ' ' || c = '\t' || c = '\n' || c = '\x0b' || c = '\x0c' || c = '\r'

/-- Worker for `fields`: `cur` holds the characters of the current field in reverse. -/
def fieldsAux : List Char → List Char → List String
  | [], [] => []
  | [], cur => [String.mk cur.reverse]
  | c :: cs, cur =>
    if goIsSpace c then
      match cur with
      | [] => fieldsAux cs []
      | _ :: _ => String.mk cur.reverse :: fieldsAux cs []
    else fieldsAux cs (c :: cur)

/-- Embedding of `strings.Fields`: split around runs of whitespace. -/
def fields (s : String) : List String := fieldsAux s.data []

/-- Embedding of `strings.ToUpper` (ASCII case mapping, which is all the
source compares against). -/
def toUpperGo (s : String) : String := String.mk (s.data.map Char.toUpper)

/-- Embedding of `strings.HasPrefix`. -/
def hasPrefix (s pre : String) : Bool := List.isPrefixOf pre.data s.data

/-- Embedding of `strings.TrimPrefix`. -/
def trimPrefixGo (s pre : String) : String :=
  if hasPrefix s pre then String.mk (s.data.drop pre.data.length) else s

/-- Embedding of `strings.Join(l, ",")` (`String.intercalate` has exactly
that semantics). -/
def joinComma (l : List String) : String := String.intercalate "," l

/-! ## Lexicographic string order (Go `<` on strings, used by `sort.Strings`
and the `sort.Slice` comparator `out[i].String() < out[j].String()`).
The built-in `String.le` does not reduce in the kernel, so the byte-wise
comparison is spelled out on the character lists. -/

/-- Three-way lexicographic "less or equal" on character lists. -/
def strLeB : List Char → List Char → Bool
  | [], _ => true
  | _ :: _, [] => false
  | a :: as, b :: bs => if a < b then true else if b < a then false else strLeB as bs

/-- Lexicographic order on strings: the order `sort.Strings` sorts by
(ascending; for the ASCII `ip:port` strings of this protocol the Go
byte-wise order and the codepoint-wise order coincide). -/
def strLe (a b : String) : Prop := strLeB a.data b.data = true

instance : DecidableRel strLe := fun a b =>
  inferInstanceAs (Decidable (strLeB a.data b.data = true))

theorem strLeB_total (x y : List Char) : strLeB x y = true ∨ strLeB y x = true := by
  induction x generalizing y with
  | nil => exact Or.inl rfl
  | cons a as ih =>
    cases y with
    | nil => exact Or.inr rfl
    | cons b bs =>
      rcases lt_trichotomy a b with hab | hab | hab
      · exact Or.inl (by simp [strLeB, hab])
      · subst hab
        rcases ih bs with h | h
        · exact Or.inl (by simp [strLeB, h])
        · exact Or.inr (by simp [strLeB, h])
      · exact Or.inr (by simp [strLeB, hab])

theorem strLeB_trans (x y z : List Char) (hxy : strLeB x y = true)
    (hyz : strLeB y z = true) : strLeB x z = true := by
  induction x generalizing y z with
  | nil => rfl
  | cons a as ih =>
    cases y with
    | nil => simp [strLeB] at hxy
    | cons b bs =>
      cases z with
      | nil => simp [strLeB] at hyz
      | cons c cs =>
        by_cases hab : a < b
        · by_cases hbc : b < c
          · simp [strLeB, lt_trans hab hbc]
          · by_cases hcb : c < b
            · simp [strLeB, hbc, hcb] at hyz
            · have hbc' : b = c := le_antisymm (not_lt.mp hcb) (not_lt.mp hbc)
              subst hbc'
              simp [strLeB, hab]
        · by_cases hba : b < a
          · simp [strLeB, hab, hba] at hxy
          · have hab' : a = b := le_antisymm (not_lt.mp hba) (not_lt.mp hab)
            subst hab'
            simp only [strLeB, if_neg (lt_irrefl a)] at hxy
            by_cases hac : a < c
            · simp [strLeB, hac]
            · by_cases hca : c < a
              · simp [strLeB, hac, hca] at hyz
              · simp only [strLeB, if_neg hac, if_neg hca] at hyz ⊢
                exact ih _ _ hxy hyz

instance : IsTotal String strLe := ⟨fun a b => strLeB_total a.data b.data⟩

instance : IsTrans String strLe := ⟨fun a b c => strLeB_trans a.data b.data c.data⟩

/-- Embedding of `sort.Strings` (ascending lexicographic sort). -/
def sortStrings (l : List String) : List String := List.insertionSort strLe l

/-! ## Introducer (`runIntroducer`, `introducer.handle`, `introducer.broadcast`)

`type roomState struct { peers map[string]*net.UDPAddr }` — the map is keyed
by `addr.String()` and its value is the address itself, so with addresses
represented by their canonical string the map is the list of its keys.
`type introducer struct { rooms map[string]*roomState }` becomes an
association list from room key to `roomState`. -/

/-- The member map of a room: the canonical strings of its members
(`roomState.peers`, key `ip:port`). -/
structure roomState where
  peers : List Addr
deriving DecidableEq

/-- The registry of the introducer: `rooms map[string]*roomState`. -/
structure introducer where
  rooms : List (String × roomState)
deriving DecidableEq

/-- Go map read `m[k]` (`nil` when absent). -/
def lookupRoom : List (String × roomState) → String → Option roomState
  | [], _ => none
  | (k, v) :: rest, r => if k = r then some v else lookupRoom rest r

/-- Go map write `m[k] = v` (insert or overwrite). -/
def setRoom : List (String × roomState) → String → roomState → List (String × roomState)
  | [], r, v => [(r, v)]
  | (k, w) :: rest, r, v => if k = r then (r, v) :: rest else (k, w) :: setRoom rest r v

/-- Go map delete `delete(m, k)`: drop the entry with key `r`. -/
def delRoom : List (String × roomState) → String → List (String × roomState)
  | [], _ => []
  | (k, w) :: rest, r => if k = r then delRoom rest r else (k, w) :: delRoom rest r

/-- Go map write `rs.peers[key] = from`: with the value determined by the
key, inserting an already-present key overwrites (leaves the key set
unchanged), otherwise the key is added. -/
def upsertKey (k : Addr) (l : List Addr) : List Addr :=
  if l.contains k then l else k :: l

/-- One datagram sent by the introducer (`in.reply(to, msg)`). -/
inductive Out where
  | reply (dst : Addr) (msg : String)
deriving DecidableEq

/-- Embedding of `introducer.broadcast`: send `msg` to every member of
`room` except `except` (the Go loop skips `a.String() == except.String()`). -/
def broadcast (st : introducer) (room : String) (except : Addr) (msg : String) : List Out :=
  match lookupRoom st.rooms room with
  | none => []
  | some rs => (rs.peers.filter (fun a => a ≠ except)).map (fun a => Out.reply a msg)

/-- Members of a room (`[]` when the room is absent). -/
def roomMembers (st : introducer) (room : String) : List Addr :=
  match lookupRoom st.rooms room with
  | none => []
  | some rs => rs.peers

/-- Embedding of `introducer.handle` after `strings.Fields`: dispatch on the
upper-cased command token. Returns the new registry and the datagrams sent,
in order. Mirrors the source: the `JOIN` branch inserts the sender, builds
the sorted snapshot of the *other* members, then replies `YOUARE`, replies
`PEERS` only when the snapshot is non-empty, and broadcasts `PEERJOIN`;
the `LEAVE` branch deletes the key of the sender and drops the room when it
became empty, sending nothing. -/
def handleParts (st : introducer) (src : Addr) (parts : List String) :
    introducer × List Out :=
  if parts.length < 2 then (st, [])
  else
    let cmd := toUpperGo (parts.getD 0 "")
    if cmd = "JOIN" then
      if parts.length < 3 then (st, [])
      else
        let room := parts.getD 1 ""
        let name := parts.getD 2 ""
        -- rs := in.rooms[room]; if nil, a fresh empty roomState is installed
        let peers0 := roomMembers st room
        let key := src
        let peers1 := upsertKey key peers0
        -- snapshot of the other peers, sorted
        let others := sortStrings (peers1.filter (fun k => k ≠ key))
        let st1 : introducer := ⟨setRoom st.rooms room ⟨peers1⟩⟩
        (st1,
          [Out.reply src ("YOUARE " ++ src)]
          ++ (if others.length > 0 then
                [Out.reply src ("PEERS " ++ joinComma others)]
              else [])
          ++ broadcast st1 room src ("PEERJOIN " ++ name ++ " " ++ src))
    else if cmd = "LEAVE" then
      let room := parts.getD 1 ""
      match lookupRoom st.rooms room with
      | none => (st, [])
      | some rs =>
        let peers1 := rs.peers.filter (fun k => k ≠ src)
        if peers1.length = 0 then (⟨delRoom st.rooms room⟩, [])
        else (⟨setRoom st.rooms room ⟨peers1⟩⟩, [])
    else (st, [])

/-- Embedding of `introducer.handle` on the raw (already `TrimSpace`d)
datagram text: `parts := strings.Fields(msg)`. -/
def handle (st : introducer) (src : Addr) (msg : String) : introducer × List Out :=
  handleParts st src (fields msg)

/-! ## Peer-side endpoint set (`peerSet`) -/

/-- Peer-side endpoint set `type peerSet struct`: a map keyed by
`addr.String()`, value determined by the key. -/
structure peerSet where
  addrs : List Addr
deriving DecidableEq

/-- Embedding of `newPeerSet()`. -/
def newPeerSet : peerSet := ⟨[]⟩

/-- Embedding of `peerSet.add`, the map write `ps.addrs[...] = addr` — an upsert on the key. -/
def peerSet.add (ps : peerSet) (a : Addr) : peerSet :=
  ⟨upsertKey a ps.addrs⟩

/-- Embedding of `peerSet.list`: collect the entries of the map and sort them ascending by
canonical string (`sort.Slice` with `out[i].String() < out[j].String()`). -/
def peerSet.list (ps : peerSet) : List Addr := sortStrings ps.addrs

/-! ## Peer receive loop (`runPeer`) and dispatcher -/

/-- A peer-side side effect: a datagram sent (`sendLine`) or a line printed. -/
inductive PeerEvt where
  | send (dst : Addr) (line : String)
  | print (text : String)
deriving DecidableEq

/-- Embedding of the non-introducer branch of the receive loop of `runPeer`,
classifying one (already `TrimSpace`d) inbound `line` from source endpoint
`src`. `name` is the local display name and `now` the value of
`time.Now().UnixNano()` at the reply. Returns the updated peer set and the
side effects, mirroring the source order of the prefix tests:
`PUNCH` first, then `PUNCH-ACK`, then `MSG `, then the debug print. -/
def peerHandle (name : String) (now : Nat) (ps : peerSet) (src : Addr)
    (line : String) : peerSet × List PeerEvt :=
  if hasPrefix line "PUNCH" then
    (ps.add src, [PeerEvt.send src ("PUNCH-ACK " ++ name ++ " " ++ toString now)])
  else if hasPrefix line "PUNCH-ACK" then
    (ps.add src, [])
  else if hasPrefix line "MSG " then
    (ps, [PeerEvt.print ("[" ++ src ++ "] " ++ trimPrefixGo line "MSG ")])
  else
    (ps, [PeerEvt.print ("[RECV " ++ src ++ "] " ++ line)])

/-- Embedding of the dispatch path of the interactive loop of `runPeer` for an
ordinary chat line `text`: send `MSG <name>: <text>` to every endpoint in
`peers.list()`, then print the "no peers yet" notice when the set is
empty. -/
def dispatchSend (name text : String) (ps : peerSet) : List PeerEvt :=
  (ps.list.map (fun a => PeerEvt.send a ("MSG " ++ name ++ ": " ++ text)))
  ++ (if ps.list.length = 0 then
        [PeerEvt.print
          "(Noch keine Peers verbunden; warte auf Introducer/Manual oder öffne Port & teile IP:Port)"]
      else [])

/-! ## Hole-punch scheduler (`punch`) -/

/-- One timed datagram of the punch scheduler: `time` is in milliseconds
after `punch` is entered. -/
structure SendEvt where
  time : Nat
  dst : Addr
  line : String
deriving DecidableEq

/-- The burst loop of `punch` toward destination `dst`: `for i := 0; i < 8; i++
{ send "PUNCH hello i"; sleep 120ms }`. `t` is the elapsed time when iteration `i` starts; returns
the timed sends of the remaining iterations and the elapsed time at loop
exit. -/
def punchLoopFrom (dst : Addr) (t i : Nat) : List SendEvt × Nat :=
  if i < 8 then
    let rest := punchLoopFrom dst (t + 120) (i + 1)
    (⟨t, dst, "PUNCH hello " ++ toString i⟩ :: rest.1, rest.2)
  else ([], t)
termination_by 8 - i

/-- The datagrams of one punch burst toward `dst`. -/
def punchBurst (dst : Addr) : List SendEvt := (punchLoopFrom dst 0 0).1

/-- Elapsed time (ms) when the burst loop exits and the keepalive ticker is
created. -/
def punchLoopEnd (dst : Addr) : Nat := (punchLoopFrom dst 0 0).2

/-- The keepalive goroutine of `punch`: a `time.Ticker` with period 15 s,
whose tick `n` (`n = 0, 1, 2, ...`) fires `15000 * (n + 1)` ms after the
ticker is created and sends `PUNCH keepalive`. Being defined for every `n`,
this models the `for range ticker.C` loop having no termination condition. -/
def keepaliveEvt (dst : Addr) (n : Nat) : SendEvt :=
  ⟨punchLoopEnd dst + 15000 * (n + 1), dst, "PUNCH keepalive"⟩

/-- Well-formedness of the registry as maintained by the Go runtime: a map
cannot hold two entries with the same key, so the member list of every room is
duplicate-free. -/
def registryWF (st : introducer) : Prop :=
  ∀ room rs, lookupRoom st.rooms room = some rs → rs.peers.Nodup

/-! ## Helper lemmas on the map embeddings -/

theorem lookup_setRoom_self (m : List (String × roomState)) (r : String) (v : roomState) :
    lookupRoom (setRoom m r v) r = some v := by
  induction m with
  | nil => simp [setRoom, lookupRoom]
  | cons p rest ih =>
    obtain ⟨k, w⟩ := p
    by_cases hk : k = r
    · simp [setRoom, hk, lookupRoom]
    · simp [setRoom, hk, lookupRoom, ih]

theorem lookup_setRoom_ne (m : List (String × roomState)) (r r' : String) (v : roomState)
    (h : r' ≠ r) : lookupRoom (setRoom m r v) r' = lookupRoom m r' := by
  induction m with
  | nil => simp [setRoom, lookupRoom, Ne.symm h]
  | cons p rest ih =>
    obtain ⟨k, w⟩ := p
    by_cases hk : k = r
    · subst hk
      simp [setRoom, lookupRoom, Ne.symm h]
    · simp [setRoom, hk, lookupRoom, ih]

theorem lookup_delRoom_self (m : List (String × roomState)) (r : String) :
    lookupRoom (delRoom m r) r = none := by
  induction m with
  | nil => rfl
  | cons p rest ih =>
    obtain ⟨k, w⟩ := p
    by_cases hk : k = r
    · simp [delRoom, hk, ih]
    · simp [delRoom, hk, lookupRoom, ih]

theorem lookup_delRoom_ne (m : List (String × roomState)) (r r' : String) (h : r' ≠ r) :
    lookupRoom (delRoom m r) r' = lookupRoom m r' := by
  induction m with
  | nil => rfl
  | cons p rest ih =>
    obtain ⟨k, w⟩ := p
    by_cases hk : k = r
    · subst hk
      simp [delRoom, lookupRoom, Ne.symm h, ih]
    · simp [delRoom, hk, lookupRoom, ih]

theorem sortStrings_perm (l : List String) : (sortStrings l).Perm l :=
  List.perm_insertionSort strLe l

theorem sortStrings_sorted (l : List String) : List.Sorted strLe (sortStrings l) :=
  List.sorted_insertionSort strLe l

theorem upsertKey_mem (k : Addr) (l : List Addr) (x : Addr) :
    x ∈ upsertKey k l ↔ x = k ∨ x ∈ l := by
  by_cases h : k ∈ l
  · simp only [upsertKey]
    rw [if_pos (by simpa using h)]
    constructor
    · exact Or.inr
    · rintro (rfl | hx)
      · exact h
      · exact hx
  · simp only [upsertKey]
    rw [if_neg (by simpa using h)]
    simp

theorem upsertKey_of_mem (k : Addr) (l : List Addr) (h : k ∈ l) :
    upsertKey k l = l := by
  simp only [upsertKey]
  rw [if_pos (by simpa using h)]

theorem upsertKey_of_not_mem (k : Addr) (l : List Addr) (h : k ∉ l) :
    upsertKey k l = k :: l := by
  simp only [upsertKey]
  rw [if_neg (by simpa using h)]

theorem upsertKey_nodup (k : Addr) (l : List Addr) (h : l.Nodup) :
    (upsertKey k l).Nodup := by
  by_cases hc : k ∈ l
  · rw [upsertKey_of_mem k l hc]
    exact h
  · rw [upsertKey_of_not_mem k l hc]
    exact List.Nodup.cons hc h

/-! ## Reduction lemmas for `handleParts` (one per branch of the dispatch) -/

theorem handleParts_short (st : introducer) (src : Addr) (parts : List String)
    (h : parts.length < 2) : handleParts st src parts = (st, []) := by
  simp only [handleParts]
  rw [if_pos h]

theorem handleParts_join_missing (st : introducer) (src : Addr) (cmd room : String)
    (hcmd : toUpperGo cmd = "JOIN") : handleParts st src [cmd, room] = (st, []) := by
  simp only [handleParts, List.length_cons, List.length_nil, List.getD_cons_zero, hcmd]
  rw [if_pos trivial]
  norm_num

theorem handleParts_join_eq (st : introducer) (src : Addr) (cmd room name : String)
    (rest : List String) (hcmd : toUpperGo cmd = "JOIN") :
    handleParts st src (cmd :: room :: name :: rest)
      = (⟨setRoom st.rooms room ⟨upsertKey src (roomMembers st room)⟩⟩,
         [Out.reply src ("YOUARE " ++ src)]
         ++ (if (sortStrings ((upsertKey src (roomMembers st room)).filter
                  (fun k => k ≠ src))).length > 0 then
               [Out.reply src ("PEERS " ++ joinComma (sortStrings
                  ((upsertKey src (roomMembers st room)).filter (fun k => k ≠ src))))]
             else [])
         ++ broadcast ⟨setRoom st.rooms room ⟨upsertKey src (roomMembers st room)⟩⟩
              room src ("PEERJOIN " ++ name ++ " " ++ src)) := by
  simp only [handleParts, List.length_cons, List.getD_cons_zero, List.getD_cons_succ, hcmd]
  rw [if_pos trivial, if_neg (show ¬ rest.length + 1 + 1 + 1 < 3 by omega),
      if_neg (show ¬ rest.length + 1 + 1 + 1 < 2 by omega)]

theorem handleParts_leave_eq (st : introducer) (src : Addr) (cmd room : String)
    (rest : List String) (hcmd : toUpperGo cmd = "LEAVE") :
    handleParts st src (cmd :: room :: rest)
      = match lookupRoom st.rooms room with
        | none => (st, [])
        | some rs =>
          if (rs.peers.filter (fun k => k ≠ src)).length = 0 then
            (⟨delRoom st.rooms room⟩, [])
          else (⟨setRoom st.rooms room ⟨rs.peers.filter (fun k => k ≠ src)⟩⟩, []) := by
  simp only [handleParts, List.length_cons, List.getD_cons_zero, List.getD_cons_succ, hcmd]
  rw [if_neg (show ¬ rest.length + 1 + 1 < 2 by omega),
      if_neg (show ¬ ("LEAVE" : String) = "JOIN" by decide), if_pos trivial]

theorem handleParts_other_eq (st : introducer) (src : Addr) (parts : List String)
    (h2 : ¬ parts.length < 2) (hj : toUpperGo (parts.getD 0 "") ≠ "JOIN")
    (hl : toUpperGo (parts.getD 0 "") ≠ "LEAVE") :
    handleParts st src parts = (st, []) := by
  simp only [handleParts]
  rw [if_neg h2, if_neg hj, if_neg hl]

/-- The introducer guard "send `PEERS` only when the snapshot is non-empty",
guard, `len(peers) > 0`, phrased through emptiness of the list. -/
theorem if_length_pos_eq (l : List String) (out : List Out) :
    (if l.length > 0 then out else []) = (if l = [] then [] else out) := by
  rcases l with _ | ⟨x, xs⟩ <;> simp

/-! ## Claim theorems -/

/-- C5: `peerSet.add` is an idempotent upsert keyed by the canonical
endpoint string — adding the same endpoint twice to the empty set yields a
set of size 1, and re-adding an endpoint is the identity on any set — and
`peerSet.list` always returns a snapshot sorted ascending by canonical
string. -/
theorem peerSet_add_idempotent_and_list_sorted :
    (∀ a : Addr, ((newPeerSet.add a).add a).addrs.length = 1)
    ∧ (∀ (ps : peerSet) (a : Addr), (ps.add a).add a = ps.add a)
    ∧ ∀ ps : peerSet, List.Sorted strLe ps.list := by
  have hidem : ∀ (ps : peerSet) (a : Addr), (ps.add a).add a = ps.add a := by
    intro ps a
    have hmem : a ∈ upsertKey a ps.addrs := (upsertKey_mem a ps.addrs a).mpr (Or.inl rfl)
    simp only [peerSet.add]
    rw [upsertKey_of_mem a _ hmem]
  refine ⟨?_, hidem, fun ps => sortStrings_sorted ps.addrs⟩
  intro a
  rw [hidem newPeerSet a]
  rfl

/-- C6: a `JOIN` whose fields are just `["JOIN", room]` (name token
missing) is silently dropped: the introducer sends no reply and the
registry is left exactly as it was. -/
theorem join_missing_name_dropped (st : introducer) (src : Addr) (room msg : String)
    (h : fields msg = ["JOIN", room]) : handle st src msg = (st, []) := by
  unfold handle
  rw [h]
  exact handleParts_join_missing st src "JOIN" room (by decide)

/-- Witness for C6 at the concrete scenario from the spec: the datagram `JOIN r1`. -/
theorem join_missing_name_dropped_witness :
    fields "JOIN r1" = ["JOIN", "r1"]
    ∧ handle ⟨[]⟩ "1.2.3.4:5" "JOIN r1" = (⟨[]⟩, []) :=
  ⟨by decide, join_missing_name_dropped ⟨[]⟩ "1.2.3.4:5" "r1" "JOIN r1" (by decide)⟩

/-- C7: dispatching a chat line with an empty Endpoint Set sends zero `MSG`
datagrams and surfaces only the informational "no peers yet" notice (the
dispatcher returns normally — this is not an error path). -/
theorem dispatch_empty_set_no_sends (name text : String) (ps : peerSet)
    (h : ps.addrs = []) :
    dispatchSend name text ps
      = [PeerEvt.print
          "(Noch keine Peers verbunden; warte auf Introducer/Manual oder öffne Port & teile IP:Port)"]
    ∧ ∀ (a : Addr) (line : String), PeerEvt.send a line ∉ dispatchSend name text ps := by
  have hlist : ps.list = [] := by
    simp [peerSet.list, h, sortStrings, List.insertionSort]
  constructor
  · simp [dispatchSend, hlist]
  · intro a line
    simp [dispatchSend, hlist]

/-- Witness for C7: a freshly created peer set. -/
theorem dispatch_empty_set_no_sends_witness :
    dispatchSend "Alice" "hi" newPeerSet
      = [PeerEvt.print
          "(Noch keine Peers verbunden; warte auf Introducer/Manual oder öffne Port & teile IP:Port)"]
    ∧ ∀ (a : Addr) (line : String), PeerEvt.send a line ∉ dispatchSend "Alice" "hi" newPeerSet :=
  dispatch_empty_set_no_sends "Alice" "hi" newPeerSet rfl

/-- C9: the introducer matches the command token case-insensitively — two
datagrams whose fields differ only in that the first token of one is the
upper-cased form of the token of the other are handled identically, because `handle`
upper-cases the token before dispatch. -/
theorem handle_command_case_insensitive (st : introducer) (src : Addr)
    (msg msg' cmd : String) (args : List String)
    (hmsg : fields msg = cmd :: args) (hmsg' : fields msg' = toUpperGo cmd :: args)
    (hcmd : toUpperGo cmd = "JOIN" ∨ toUpperGo cmd = "LEAVE") :
    handle st src msg = handle st src msg' := by
  unfold handle
  rw [hmsg, hmsg']
  rcases hcmd with h | h
  · rcases args with _ | ⟨room, args2⟩
    · rw [handleParts_short st src [cmd] (by simp),
          handleParts_short st src [toUpperGo cmd] (by simp)]
    · rcases args2 with _ | ⟨nm, rest⟩
      · rw [handleParts_join_missing st src cmd room h, h,
            handleParts_join_missing st src "JOIN" room (by decide)]
      · rw [handleParts_join_eq st src cmd room nm rest h, h,
            handleParts_join_eq st src "JOIN" room nm rest (by decide)]
  · rcases args with _ | ⟨room, rest⟩
    · rw [handleParts_short st src [cmd] (by simp),
          handleParts_short st src [toUpperGo cmd] (by simp)]
    · rw [handleParts_leave_eq st src cmd room rest h, h,
          handleParts_leave_eq st src "LEAVE" room rest (by decide)]

/-- Witness for C9: `join r1 alice` is handled exactly like `JOIN r1 alice`. -/
theorem handle_command_case_insensitive_witness :
    handle ⟨[]⟩ "7.7.7.7:7" "join r1 alice" = handle ⟨[]⟩ "7.7.7.7:7" "JOIN r1 alice" :=
  handle_command_case_insensitive ⟨[]⟩ "7.7.7.7:7" "join r1 alice" "JOIN r1 alice"
    "join" ["r1", "alice"] (by decide) (by decide) (Or.inl (by decide))

/-- C10: an inbound `MSG ` chat line from a peer never enlarges the
Endpoint Set — the receive-loop classification leaves the set unchanged
(and sends nothing; its only effect is the chat print). -/
theorem msg_line_does_not_learn_endpoint (name : String) (now : Nat) (ps : peerSet)
    (src : Addr) (rest : String) :
    (peerHandle name now ps src ("MSG " ++ rest)).1 = ps
    ∧ ∀ (a : Addr) (line : String),
        PeerEvt.send a line ∉ (peerHandle name now ps src ("MSG " ++ rest)).2 := by
  have h1 : hasPrefix ("MSG " ++ rest) "PUNCH" = false := by
    simp [hasPrefix, List.isPrefixOf]
  have h2 : hasPrefix ("MSG " ++ rest) "PUNCH-ACK" = false := by
    simp [hasPrefix, List.isPrefixOf]
  have h3 : hasPrefix ("MSG " ++ rest) "MSG " = true := by
    simp [hasPrefix, List.isPrefixOf]
  constructor
  · simp [peerHandle, h1, h2, h3]
  · intro a line
    simp [peerHandle, h1, h2, h3]

/-- C2 (refuted as stated; see also the spec §4.4): in the code the
`PUNCH` prefix test runs *before* the `PUNCH-ACK` test, and `PUNCH-ACK`
lines match the `PUNCH` prefix, so every received `PUNCH-ACK` line takes
the `PUNCH` branch and triggers a reciprocal `PUNCH-ACK` reply; the
dedicated `PUNCH-ACK` branch is unreachable. First conjunct: every line
with the `PUNCH-ACK` prefix makes the peer send a reply. Second conjunct:
concrete evaluation at the failing input — peer `alice` at timestamp 42
receiving `PUNCH-ACK bob 7` from `9.9.9.9:9000` replies instead of staying
silent. -/
theorem punchack_line_triggers_reply :
    (∀ (name : String) (now : Nat) (ps : peerSet) (src : Addr) (rest : String),
        (peerHandle name now ps src ("PUNCH-ACK" ++ rest)).2
          = [PeerEvt.send src ("PUNCH-ACK " ++ name ++ " " ++ toString now)])
    ∧ peerHandle "alice" 42 newPeerSet "9.9.9.9:9000" "PUNCH-ACK bob 7"
        = (⟨["9.9.9.9:9000"]⟩,
           [PeerEvt.send "9.9.9.9:9000" "PUNCH-ACK alice 42"]) := by
  constructor
  · intro name now ps src rest
    have h1 : hasPrefix ("PUNCH-ACK" ++ rest) "PUNCH" = true := by
      simp [hasPrefix, List.isPrefixOf]
    simp [peerHandle, h1]
  · decide

/-- C3: a hole-punch burst toward `dst` is exactly the 8 datagrams
`PUNCH hello 0` … `PUNCH hello 7` at times 0, 120, …, 840 ms (120 ms
apart); every burst datagram precedes the first keepalive; and the
keepalive ticker sends `PUNCH keepalive` to the same endpoint at
`960 + 15000·(n+1)` ms for *every* `n` (15 s apart, defined for all ticks —
no termination condition). -/
theorem punch_burst_then_keepalive (dst : Addr) :
    punchBurst dst =
      [⟨0, dst, "PUNCH hello 0"⟩, ⟨120, dst, "PUNCH hello 1"⟩, ⟨240, dst, "PUNCH hello 2"⟩,
       ⟨360, dst, "PUNCH hello 3"⟩, ⟨480, dst, "PUNCH hello 4"⟩, ⟨600, dst, "PUNCH hello 5"⟩,
       ⟨720, dst, "PUNCH hello 6"⟩, ⟨840, dst, "PUNCH hello 7"⟩]
    ∧ (∀ e ∈ punchBurst dst, e.time < (keepaliveEvt dst 0).time)
    ∧ (∀ n : Nat, keepaliveEvt dst n = ⟨960 + 15000 * (n + 1), dst, "PUNCH keepalive"⟩)
    ∧ (∀ n : Nat, (keepaliveEvt dst (n + 1)).time = (keepaliveEvt dst n).time + 15000) := by
  have h0 : ("PUNCH hello " ++ toString (0 : Nat)) = "PUNCH hello 0" := by decide
  have h1 : ("PUNCH hello " ++ toString (1 : Nat)) = "PUNCH hello 1" := by decide
  have h2 : ("PUNCH hello " ++ toString (2 : Nat)) = "PUNCH hello 2" := by decide
  have h3 : ("PUNCH hello " ++ toString (3 : Nat)) = "PUNCH hello 3" := by decide
  have h4 : ("PUNCH hello " ++ toString (4 : Nat)) = "PUNCH hello 4" := by decide
  have h5 : ("PUNCH hello " ++ toString (5 : Nat)) = "PUNCH hello 5" := by decide
  have h6 : ("PUNCH hello " ++ toString (6 : Nat)) = "PUNCH hello 6" := by decide
  have h7 : ("PUNCH hello " ++ toString (7 : Nat)) = "PUNCH hello 7" := by decide
  have hburst : punchBurst dst =
      [⟨0, dst, "PUNCH hello 0"⟩, ⟨120, dst, "PUNCH hello 1"⟩, ⟨240, dst, "PUNCH hello 2"⟩,
       ⟨360, dst, "PUNCH hello 3"⟩, ⟨480, dst, "PUNCH hello 4"⟩, ⟨600, dst, "PUNCH hello 5"⟩,
       ⟨720, dst, "PUNCH hello 6"⟩, ⟨840, dst, "PUNCH hello 7"⟩] := by
    simp [punchBurst, punchLoopFrom, h0, h1, h2, h3, h4, h5, h6, h7]
  have hend : punchLoopEnd dst = 960 := by
    simp [punchLoopEnd, punchLoopFrom]
  refine ⟨hburst, ?_, ?_, ?_⟩
  · intro e he
    rw [hburst] at he
    have htick : (keepaliveEvt dst 0).time = 15960 := by
      simp [keepaliveEvt, hend]
    rw [htick]
    simp only [List.mem_cons, List.not_mem_nil, or_false] at he
    rcases he with rfl | rfl | rfl | rfl | rfl | rfl | rfl | rfl <;> simp
  · intro n
    simp [keepaliveEvt, hend]
  · intro n
    simp [keepaliveEvt]
    ring

/-- C1: introducer handling of `JOIN <room> <name>` replies, in
order: (a) `YOUARE <sender>` to the sender; (b) when the room then holds
other members, one `PEERS` message whose list is exactly the canonical
strings of the other still-present members (the post-join members of the room
minus the joiner), sorted ascending, the joiner excluded, and no `PEERS`
message when that list is empty; (c) `PEERJOIN <name> <sender>` to every
other current member of the room. -/
theorem join_replies_in_order (st : introducer) (src : Addr) (room name : String)
    (rest : List String) :
    ∃ others : List String,
      others.Perm ((roomMembers (handleParts st src ("JOIN" :: room :: name :: rest)).1 room).filter
        (fun a => a ≠ src))
      ∧ List.Sorted strLe others
      ∧ src ∉ others
      ∧ (handleParts st src ("JOIN" :: room :: name :: rest)).2
          = [Out.reply src ("YOUARE " ++ src)]
            ++ (if others = [] then [] else [Out.reply src ("PEERS " ++ joinComma others)])
            ++ ((roomMembers (handleParts st src ("JOIN" :: room :: name :: rest)).1 room).filter
                  (fun a => a ≠ src)).map
                (fun a => Out.reply a ("PEERJOIN " ++ name ++ " " ++ src)) := by
  have hred := handleParts_join_eq st src "JOIN" room name rest (by decide)
  set peers1 := upsertKey src (roomMembers st room) with hpeers1
  have hmem : roomMembers (handleParts st src ("JOIN" :: room :: name :: rest)).1 room
      = peers1 := by
    rw [hred]
    simp [roomMembers, lookup_setRoom_self]
  have hbr : broadcast ⟨setRoom st.rooms room ⟨peers1⟩⟩ room src
        ("PEERJOIN " ++ name ++ " " ++ src)
      = (peers1.filter (fun a => a ≠ src)).map
          (fun a => Out.reply a ("PEERJOIN " ++ name ++ " " ++ src)) := by
    simp [broadcast, lookup_setRoom_self]
  refine ⟨sortStrings (peers1.filter (fun k => k ≠ src)), ?_, sortStrings_sorted _, ?_, ?_⟩
  · rw [hmem]
    exact sortStrings_perm _
  · intro hmemSrc
    have hx : src ∈ peers1.filter (fun k => k ≠ src) :=
      (sortStrings_perm (peers1.filter (fun k => k ≠ src))).mem_iff.mp hmemSrc
    simp at hx
  · rw [hmem, hred]
    show _ ++ _ ++ _ = _
    rw [hbr, if_length_pos_eq]

/-- C4: introducer handling of `LEAVE <room>` sends no reply and no
broadcast to anyone; it removes the canonical endpoint of the sender from the
member set of the room; the room entry is gone from the registry exactly when
the remaining member set is empty; and once removed, a subsequent `JOIN`
for that room key creates a fresh room containing only the new joiner. -/
theorem leave_removes_member_silently (st : introducer) (src : Addr) (room : String)
    (rest : List String) :
    (handleParts st src ("LEAVE" :: room :: rest)).2 = []
    ∧ roomMembers (handleParts st src ("LEAVE" :: room :: rest)).1 room
        = (roomMembers st room).filter (fun a => a ≠ src)
    ∧ (lookupRoom (handleParts st src ("LEAVE" :: room :: rest)).1.rooms room = none
        ↔ (roomMembers st room).filter (fun a => a ≠ src) = [])
    ∧ ((roomMembers st room).filter (fun a => a ≠ src) = [] →
        ∀ (src2 : Addr) (name2 : String),
          roomMembers (handleParts (handleParts st src ("LEAVE" :: room :: rest)).1 src2
            ["JOIN", room, name2]).1 room = [src2]) := by
  have hred := handleParts_leave_eq st src "LEAVE" room rest (by decide)
  cases hlk : lookupRoom st.rooms room with
  | none =>
    rw [hlk] at hred
    have hred2 : handleParts st src ("LEAVE" :: room :: rest) = (st, []) := by rw [hred]
    have hmem : roomMembers st room = [] := by simp [roomMembers, hlk]
    refine ⟨by rw [hred2], ?_, ?_, ?_⟩
    · rw [hred2]
      simp [hmem]
    · rw [hred2]
      simp [hlk, hmem]
    · intro _ src2 name2
      rw [hred2]
      rw [show ((st, ([] : List Out)).1) = st from rfl]
      rw [handleParts_join_eq st src2 "JOIN" room name2 [] (by decide)]
      simp [roomMembers, lookup_setRoom_self, hlk, upsertKey]
  | some rs =>
    rw [hlk] at hred
    have hred2 : handleParts st src ("LEAVE" :: room :: rest)
        = if (rs.peers.filter (fun k => k ≠ src)).length = 0 then
            (⟨delRoom st.rooms room⟩, [])
          else (⟨setRoom st.rooms room ⟨rs.peers.filter (fun k => k ≠ src)⟩⟩, []) := by
      rw [hred]
    clear hred
    have hmem : roomMembers st room = rs.peers := by simp [roomMembers, hlk]
    by_cases hempty : (rs.peers.filter (fun k => k ≠ src)).length = 0
    · rw [if_pos hempty] at hred2
      have hfe : rs.peers.filter (fun k => k ≠ src) = [] :=
        List.length_eq_zero.mp hempty
      have hfst : (handleParts st src ("LEAVE" :: room :: rest)).1
          = ⟨delRoom st.rooms room⟩ := by rw [hred2]
      have hd : lookupRoom (delRoom st.rooms room) room = none :=
        lookup_delRoom_self st.rooms room
      have hdel : roomMembers (⟨delRoom st.rooms room⟩ : introducer) room = [] := by
        simp [roomMembers, hd]
      refine ⟨by rw [hred2], ?_, ?_, ?_⟩
      · rw [hfst, hmem, hdel, hfe]
      · rw [hfst, hmem]
        exact iff_of_true hd hfe
      · intro _ src2 name2
        rw [hfst]
        rw [handleParts_join_eq _ src2 "JOIN" room name2 [] (by decide)]
        simp [roomMembers, lookup_setRoom_self, hd, upsertKey]
    · rw [if_neg hempty] at hred2
      have hne : rs.peers.filter (fun k => k ≠ src) ≠ [] := by
        intro h'
        exact hempty (by rw [h']; rfl)
      have hfst : (handleParts st src ("LEAVE" :: room :: rest)).1
          = ⟨setRoom st.rooms room ⟨rs.peers.filter (fun k => k ≠ src)⟩⟩ := by rw [hred2]
      refine ⟨by rw [hred2], ?_, ?_, ?_⟩
      · rw [hfst, hmem]
        simp [roomMembers, lookup_setRoom_self]
      · rw [hfst, hmem]
        exact iff_of_false (by simp [lookup_setRoom_self]) hne
      · intro hcontra
        rw [hmem] at hcontra
        exact absurd hcontra hne

/-- C8: introducer handling of any message preserves the invariant
that the member set of a room never contains two entries with the same
canonical endpoint string; and a re-JOIN from an endpoint already in the
room overwrites rather than duplicates — the member count does not grow. -/
theorem handle_preserves_registry_nodup (st : introducer) (src : Addr)
    (h : registryWF st) :
    (∀ parts : List String, registryWF (handleParts st src parts).1)
    ∧ ∀ (room name : String) (rest : List String), src ∈ roomMembers st room →
        (roomMembers (handleParts st src ("JOIN" :: room :: name :: rest)).1 room).length
          = (roomMembers st room).length := by
  have hmembersNodup : ∀ room, (roomMembers st room).Nodup := by
    intro room
    cases hlk : lookupRoom st.rooms room with
    | none => simp [roomMembers, hlk]
    | some rs => simpa [roomMembers, hlk] using h room rs hlk
  have hjoinWF : ∀ (cmd room name : String) (rest : List String), toUpperGo cmd = "JOIN" →
      registryWF (handleParts st src (cmd :: room :: name :: rest)).1 := by
    intro cmd room name rest hcmd
    have hfst : (handleParts st src (cmd :: room :: name :: rest)).1
        = ⟨setRoom st.rooms room ⟨upsertKey src (roomMembers st room)⟩⟩ := by
      rw [handleParts_join_eq st src cmd room name rest hcmd]
    rw [hfst]
    intro r rs hlk0
    have hlk' : lookupRoom (setRoom st.rooms room ⟨upsertKey src (roomMembers st room)⟩) r
        = some rs := hlk0
    by_cases hr : r = room
    · subst hr
      rw [lookup_setRoom_self] at hlk'
      cases hlk'
      exact upsertKey_nodup src _ (hmembersNodup r)
    · rw [lookup_setRoom_ne st.rooms room r _ hr] at hlk'
      exact h r rs hlk'
  have hleaveWF : ∀ (cmd room : String) (rest : List String), toUpperGo cmd = "LEAVE" →
      registryWF (handleParts st src (cmd :: room :: rest)).1 := by
    intro cmd room rest hcmd
    have hred := handleParts_leave_eq st src cmd room rest hcmd
    cases hlk : lookupRoom st.rooms room with
    | none =>
      rw [hlk] at hred
      have hfst : (handleParts st src (cmd :: room :: rest)).1 = st := by rw [hred]
      rw [hfst]
      exact h
    | some rs =>
      rw [hlk] at hred
      by_cases he : (rs.peers.filter (fun k => k ≠ src)).length = 0
      · have hfst : (handleParts st src (cmd :: room :: rest)).1
            = ⟨delRoom st.rooms room⟩ := by
          rw [hred]
          show (if (rs.peers.filter (fun k => k ≠ src)).length = 0 then
              ((⟨delRoom st.rooms room⟩ : introducer), ([] : List Out))
            else (⟨setRoom st.rooms room ⟨rs.peers.filter (fun k => k ≠ src)⟩⟩, [])).1 = _
          rw [if_pos he]
        rw [hfst]
        intro r rs' hlk0
        have hlk' : lookupRoom (delRoom st.rooms room) r = some rs' := hlk0
        by_cases hr : r = room
        · subst hr
          rw [lookup_delRoom_self] at hlk'
          cases hlk'
        · rw [lookup_delRoom_ne st.rooms room r hr] at hlk'
          exact h r rs' hlk'
      · have hfst : (handleParts st src (cmd :: room :: rest)).1
            = ⟨setRoom st.rooms room ⟨rs.peers.filter (fun k => k ≠ src)⟩⟩ := by
          rw [hred]
          show (if (rs.peers.filter (fun k => k ≠ src)).length = 0 then
              ((⟨delRoom st.rooms room⟩ : introducer), ([] : List Out))
            else (⟨setRoom st.rooms room ⟨rs.peers.filter (fun k => k ≠ src)⟩⟩, [])).1 = _
          rw [if_neg he]
        rw [hfst]
        intro r rs' hlk0
        have hlk' : lookupRoom (setRoom st.rooms room ⟨rs.peers.filter (fun k => k ≠ src)⟩) r
            = some rs' := hlk0
        by_cases hr : r = room
        · subst hr
          rw [lookup_setRoom_self] at hlk'
          cases hlk'
          exact List.Nodup.filter _ (h r rs hlk)
        · rw [lookup_setRoom_ne st.rooms room r _ hr] at hlk'
          exact h r rs' hlk'
  refine ⟨?_, ?_⟩
  · intro parts
    match parts with
    | [] =>
      rw [handleParts_short st src [] (by simp)]
      exact h
    | [a] =>
      rw [handleParts_short st src [a] (by simp)]
      exact h
    | a :: b :: tail =>
      by_cases hj : toUpperGo a = "JOIN"
      · match tail with
        | [] =>
          rw [handleParts_join_missing st src a b hj]
          exact h
        | c :: tail2 => exact hjoinWF a b c tail2 hj
      · by_cases hl : toUpperGo a = "LEAVE"
        · exact hleaveWF a b tail hl
        · rw [handleParts_other_eq st src (a :: b :: tail) (by simp)
            (by simpa using hj) (by simpa using hl)]
          exact h
  · intro room name rest hsrc
    have hfst : (handleParts st src ("JOIN" :: room :: name :: rest)).1
        = ⟨setRoom st.rooms room ⟨upsertKey src (roomMembers st room)⟩⟩ := by
      rw [handleParts_join_eq st src "JOIN" room name rest (by decide)]
    rw [hfst]
    have hm : roomMembers
        (⟨setRoom st.rooms room ⟨upsertKey src (roomMembers st room)⟩⟩ : introducer) room
        = upsertKey src (roomMembers st room) := by
      simp [roomMembers, lookup_setRoom_self]
    rw [hm, upsertKey_of_mem src _ hsrc]

/-- Witness for C8: a one-room registry; the endpoint re-joins its room and
the member count stays 1. -/
theorem handle_preserves_registry_nodup_witness :
    registryWF ⟨[("r1", ⟨["1.1.1.1:1"]⟩)]⟩
    ∧ (roomMembers (handleParts ⟨[("r1", ⟨["1.1.1.1:1"]⟩)]⟩ "1.1.1.1:1"
          ["JOIN", "r1", "alice"]).1 "r1").length
        = (roomMembers ⟨[("r1", ⟨["1.1.1.1:1"]⟩)]⟩ "r1").length := by
  have hwf : registryWF ⟨[("r1", ⟨["1.1.1.1:1"]⟩)]⟩ := by
    intro room rs hlk
    simp only [lookupRoom] at hlk
    by_cases hr : "r1" = room
    · rw [if_pos hr] at hlk
      cases hlk
      decide
    · rw [if_neg hr] at hlk
      cases hlk
  exact ⟨hwf, (handle_preserves_registry_nodup _ "1.1.1.1:1" hwf).2 "r1" "alice" []
    (by decide)⟩

/-- Witness for C4: the sole member of room `r1` leaves; the room vanishes
and a fresh `JOIN` re-creates it with only the new joiner. -/
theorem leave_removes_member_silently_witness :
    (handleParts ⟨[("r1", ⟨["2.2.2.2:2"]⟩)]⟩ "2.2.2.2:2" ["LEAVE", "r1"]).2 = []
    ∧ roomMembers (handleParts ⟨[("r1", ⟨["2.2.2.2:2"]⟩)]⟩ "2.2.2.2:2"
          ["LEAVE", "r1"]).1 "r1"
        = (roomMembers ⟨[("r1", ⟨["2.2.2.2:2"]⟩)]⟩ "r1").filter (fun a => a ≠ "2.2.2.2:2")
    ∧ (lookupRoom (handleParts ⟨[("r1", ⟨["2.2.2.2:2"]⟩)]⟩ "2.2.2.2:2"
          ["LEAVE", "r1"]).1.rooms "r1" = none
        ↔ (roomMembers ⟨[("r1", ⟨["2.2.2.2:2"]⟩)]⟩ "r1").filter
            (fun a => a ≠ "2.2.2.2:2") = [])
    ∧ ((roomMembers ⟨[("r1", ⟨["2.2.2.2:2"]⟩)]⟩ "r1").filter
          (fun a => a ≠ "2.2.2.2:2") = [] →
        ∀ (src2 : Addr) (name2 : String),
          roomMembers (handleParts (handleParts ⟨[("r1", ⟨["2.2.2.2:2"]⟩)]⟩ "2.2.2.2:2"
              ["LEAVE", "r1"]).1 src2 ["JOIN", "r1", name2]).1 "r1" = [src2]) :=
  leave_removes_member_silently ⟨[("r1", ⟨["2.2.2.2:2"]⟩)]⟩ "2.2.2.2:2" "r1" []
